import Mathlib

/-!
# Verification of the `reggie` GP-regression core

Shallow embedding of `src/reggie/models/gp.py` and `src/reggie/models/meta.py`.

Conventions of the embedding:

* Numeric arrays are total functions: a vector of length `n` is `Fin n → ℚ`,
  a matrix is `Matrix (Fin m) (Fin n) ℚ`.  The scalar field is `ℚ` so that
  every definition is executable and decidable; the acquisition functions
  (`get_improvement`), which involve `sqrt` and the Gaussian pdf/cdf, are
  additionally embedded over `ℝ` in the final section.
* Input points are an abstract type `α`; the kernel, mean and likelihood are
  external collaborators (spec §6) and enter as plain function parameters
  (`kf : α → α → ℚ` for the covariance function, `mf : α → ℚ` for the mean).
* `mwhutils.linalg.solve_triangular` and `cholesky` are external library
  routines (not under `src/`); they are threaded through as opaque function
  parameters of types `SolveTri` and `CholFn`, which is all the claims need.
* A fallible method returns `Except String`; the only failure raised by
  `GP._predict` itself is the `ValueError` of line 83 of `gp.py`.
-/

namespace Reggie

/-- Vectors of rationals, indexed by `Fin`. -/
abbrev Vec (n : ℕ) := Fin n → ℚ

/-- Dense rational matrices. -/
abbrev Mat (m n : ℕ) := Matrix (Fin m) (Fin n) ℚ

/-- The type of the external `mwhutils.linalg.solve_triangular` routine
(spec §4.1): given a lower-triangular `L` and a right-hand side `B` it
returns the solution of `L·V = B`.  The embedding never needs more than
that it is some fixed function, so it is passed as a parameter. -/
def SolveTri : Type := ∀ (p q : ℕ), Mat p p → Mat p q → Mat p q

/-- Posterior sufficient statistics held by an inference strategy
(the fields of `self._post` that `GP._predict` reads): the factor `L`,
solve-vector `a`, weight vector `w`, the optional correction factor `C`
of the sparse strategy, and the cached log-likelihood `lZ` with its
gradient `dlZ`. -/
structure Post (p : ℕ) where
  w : Vec p
  L : Mat p p
  a : Vec p
  C : Option (Mat p p)
  lZ : ℚ
  dlZ : List ℚ

/-- Which inputs the low-rank projection targets: the data itself for the
exact strategy (where the factorization dimension equals `n`), or a set of
inducing points `U` for a sparse strategy — the `hasattr(self._post, 'U')`
seam of `GP._predict` (gp.py lines 63–66). -/
inductive ProjTarget (α : Type) (n p : ℕ) where
  | data (h : p = n)
  | inducing (U : Fin p → α)

/-- The state of a `GP` model instance: the accumulated observations
`(X, Y)`, the active strategy's posterior statistics over dimension `p`,
and the running incumbent `_fmax`. -/
structure GPState (α : Type) (n : ℕ) where
  X : Fin n → α
  Y : Vec n
  p : ℕ
  proj : ProjTarget α n p
  post : Post p
  fmax : Option ℚ

variable {α : Type} {n q k dd : ℕ}

/-- The projection inputs a target selects out of the observed data:
`U` for inducing points, the data itself otherwise. -/
def projOf {p : ℕ} (X : Fin n → α) : ProjTarget α n p → Fin p → α
  | .data h => fun i => X (Fin.cast h i)
  | .inducing U => U

/-- The projection inputs used to build cross-kernels: `U` when the
strategy has inducing points, `self._X` otherwise. -/
def GPState.projPt (s : GPState α n) : Fin s.p → α :=
  projOf s.X s.proj

/-- `K = kern.get_kernel(target, X)` of gp.py lines 63–66: the cross
covariance between the projection target and the query batch. -/
def GP.Kmat (kf : α → α → ℚ) (s : GPState α n) (Xq : Fin q → α) :
    Mat s.p q :=
  fun i j => kf (s.projPt i) (Xq j)

/-- `V = la.solve_triangular(L, w*K)` of gp.py line 70. -/
def GP.Vmat (st : SolveTri) (kf : α → α → ℚ) (s : GPState α n)
    (Xq : Fin q → α) : Mat s.p q :=
  st s.p q s.post.L (fun i j => s.post.w i * GP.Kmat kf s Xq i j)

/-- The predictive mean of `GP._predict` (gp.py lines 57, 71):
prior mean, plus `Kᵀ·a` when there is data. -/
def GP.postMu (kf : α → α → ℚ) (mf : α → ℚ)
    (s : GPState α n) (Xq : Fin q → α) : Vec q :=
  if 0 < n then
    fun j => mf (Xq j) + ∑ i, GP.Kmat kf s Xq i j * s.post.a i
  else
    fun j => mf (Xq j)

/-- The joint predictive covariance of `GP._predict` (gp.py lines 58, 72,
77): prior kernel, minus `Vᵀ·V`, plus, when the strategy carries a
correction factor, `VCᵀ·VC` with `VC = solve_triangular(C, K)`. -/
def GP.s2Joint (st : SolveTri) (kf : α → α → ℚ) (s : GPState α n)
    (Xq : Fin q → α) : Mat q q :=
  if 0 < n then
    let K := GP.Kmat kf s Xq
    let V := GP.Vmat st kf s Xq
    let base : Mat q q := fun i j => kf (Xq i) (Xq j) - ∑ l, V l i * V l j
    match s.post.C with
    | none => base
    | some Cm =>
        let VC := st s.p q Cm K
        fun i j => base i j + ∑ l, VC l i * VC l j
  else
    fun i j => kf (Xq i) (Xq j)

/-- The marginal predictive variance of `GP._predict` (gp.py lines 59, 72,
77): prior diagonal kernel, minus the column sums of `V²`, plus, when the
strategy carries a correction factor, the column sums of `VC²`. -/
def GP.s2Marg (st : SolveTri) (kf : α → α → ℚ) (s : GPState α n)
    (Xq : Fin q → α) : Vec q :=
  if 0 < n then
    let K := GP.Kmat kf s Xq
    let V := GP.Vmat st kf s Xq
    let base : Vec q := fun j => kf (Xq j) (Xq j) - ∑ l, V l j ^ 2
    match s.post.C with
    | none => base
    | some Cm =>
        let VC := st s.p q Cm K
        fun j => base j + ∑ l, VC l j ^ 2
  else
    fun j => kf (Xq j) (Xq j)

/-- The mean gradient of `GP._predict` (gp.py lines 86, 101): the prior
mean gradient plus `dKᵀ·a`; `kgradx x z c` is `∂k(x, z)/∂x_c`, the
external kernel's `get_gradx` contract, and `mgradx` the mean's. -/
def GP.dMu (kgradx : α → α → Fin dd → ℚ) (mgradx : α → Fin dd → ℚ)
    (s : GPState α n) (Xq : Fin q → α) :
    Matrix (Fin q) (Fin dd) ℚ :=
  if 0 < n then
    fun i c => mgradx (Xq i) c + ∑ l, kgradx (Xq i) (s.projPt l) c * s.post.a l
  else
    fun i c => mgradx (Xq i) c

/-- The flattened kernel-gradient matrix of gp.py lines 97–98: `get_gradx`
rolled to axis order (target, query, coordinate) and reshaped row-major to
a `p × (q·d)` matrix. -/
def GP.dKflat (kgradx : α → α → Fin dd → ℚ) (s : GPState α n)
    (Xq : Fin q → α) : Mat s.p (q * dd) :=
  fun l e => kgradx (Xq (finProdFinEquiv.symm e).1) (s.projPt l)
    (finProdFinEquiv.symm e).2

/-- The marginal-variance gradient of `GP._predict` (gp.py lines 87,
104–112): zero prior, minus `2·Σ dV*V`, plus, with a correction factor,
`2·Σ dVC*VC`, each solve applied to the flattened gradient matrix. -/
def GP.dS2 (st : SolveTri) (kf : α → α → ℚ) (kgradx : α → α → Fin dd → ℚ)
    (s : GPState α n) (Xq : Fin q → α) :
    Matrix (Fin q) (Fin dd) ℚ :=
  if 0 < n then
    let K := GP.Kmat kf s Xq
    let V := GP.Vmat st kf s Xq
    let dK := GP.dKflat kgradx s Xq
    let dV := st s.p (q * dd) s.post.L (fun l e => s.post.w l * dK l e)
    let base : Matrix (Fin q) (Fin dd) ℚ :=
      fun i c => 0 - 2 * ∑ l, dV l (finProdFinEquiv (i, c)) * V l i
    match s.post.C with
    | none => base
    | some Cm =>
        let VC := st s.p q Cm K
        let dVC := st s.p (q * dd) Cm dK
        fun i c => base i c + 2 * ∑ l, dVC l (finProdFinEquiv (i, c)) * VC l i
  else
    0

/-- The value returned by `GP._predict`: marginal moments, joint moments,
or marginal moments with input-gradients. -/
inductive PredictResult (q dd : ℕ) where
  | marginal (mu : Vec q) (s2 : Vec q)
  | joint (mu : Vec q) (S2 : Mat q q)
  | marginalGrad (mu : Vec q) (s2 : Vec q)
      (dmu : Matrix (Fin q) (Fin dd) ℚ) (ds2 : Matrix (Fin q) (Fin dd) ℚ)
  deriving DecidableEq

/-- Shallow embedding of `GP._predict` (gp.py lines 55–114).  The only
exception the method itself raises is the `ValueError` of line 83, on the
joint-plus-gradient combination. -/
def GP.predictInner (st : SolveTri) (kf : α → α → ℚ)
    (kgradx : α → α → Fin dd → ℚ) (mf : α → ℚ) (mgradx : α → Fin dd → ℚ)
    (s : GPState α n) (Xq : Fin q → α) (joint grad : Bool) :
    Except String (PredictResult q dd) :=
  if grad then
    if joint then
      .error "cannot compute gradients of joint predictions"
    else
      .ok (.marginalGrad (GP.postMu kf mf s Xq) (GP.s2Marg st kf s Xq)
        (GP.dMu kgradx mgradx s Xq) (GP.dS2 st kf kgradx s Xq))
  else if joint then
    .ok (.joint (GP.postMu kf mf s Xq) (GP.s2Joint st kf s Xq))
  else
    .ok (.marginal (GP.postMu kf mf s Xq) (GP.s2Marg st kf s Xq))

/-- `GP.predict` (gp.py lines 137–138): the public entry point always
passes `joint=False`. -/
def GP.predict (st : SolveTri) (kf : α → α → ℚ)
    (kgradx : α → α → Fin dd → ℚ) (mf : α → ℚ) (mgradx : α → Fin dd → ℚ)
    (s : GPState α n) (Xq : Fin q → α) (grad : Bool) :
    Except String (PredictResult q dd) :=
  GP.predictInner st kf kgradx mf mgradx s Xq false grad

/-- `GP.get_loglike` with `grad=False` (gp.py lines 116–120). -/
def GP.getLoglike (s : GPState α n) : ℚ :=
  if n = 0 then 0 else s.post.lZ

/-- `GP.get_loglike` with `grad=True` (gp.py lines 116–120); `nhyp` is
`self.params.size`, the size of the external hyperparameter registry. -/
def GP.getLoglikeGrad (s : GPState α n) (nhyp : ℕ) : ℚ × List ℚ :=
  if n = 0 then (0, List.replicate nhyp 0) else (s.post.lZ, s.post.dlZ)

/-- The type of the external `mwhutils.linalg.cholesky` routine
(spec §4.1), passed as an opaque parameter like `SolveTri`. -/
def CholFn : Type := ∀ (q : ℕ), Mat q q → Mat q q

/-- `la.add_diagonal(Sigma, 1e-10)` of gp.py line 126 (spec §4.1). -/
def addDiagonal (M : Mat q q) (v : ℚ) : Mat q q :=
  fun i j => if i = j then M i j + v else M i j

/-- Shallow embedding of `GP.sample` (gp.py lines 122–135): factor the
jittered joint posterior covariance and push the standard-normal draws
`Z` (the external `rng.normal(size=(m, n))`) through it; when
`latent=False` every entry is further passed through the external
likelihood's `sample` contract (`likeS`).  `m = 1` when `size is None`,
in which case the caller ravels the single row. -/
def GP.sample (st : SolveTri) (chol : CholFn) (kf : α → α → ℚ)
    (mf : α → ℚ) (likeS : ℚ → ℚ) (s : GPState α n) (Xq : Fin q → α)
    (size : Option ℕ) (latent : Bool) (Z : Fin (size.getD 1) → Vec q) :
    Matrix (Fin (size.getD 1)) (Fin q) ℚ :=
  let mu := GP.postMu kf mf s Xq
  let Sigma := GP.s2Joint st kf s Xq
  let L := chol q (addDiagonal Sigma (1 / 10 ^ 10))
  let f : Matrix (Fin (size.getD 1)) (Fin q) ℚ :=
    fun r i => mu i + ∑ j, Z r j * L i j
  if latent = false then fun r i => likeS (f r i) else f

/-- The per-point acquisition value of `GP.get_improvement` (gp.py lines
153–165) over `ℚ`, with the external `np.sqrt`, `scipy.stats.norm.pdf`
and `.cdf` routines passed as parameters (the exact real-valued formula
is studied over `ℝ` below). -/
def GP.improvementQ (sqrtQ pdfQ cdfQ : ℚ → ℚ) (fmax xi mu s2 : ℚ)
    (pi : Bool) : ℚ :=
  let a := mu - (fmax + xi)
  let s := sqrtQ s2
  let z := a / s
  if pi then cdfQ z else a * cdfQ z + s * pdfQ z

/-- The maximum entry of a nonempty vector (`mu.max()` of gp.py line 53). -/
def Vec.max (v : Vec n) (h : 0 < n) : ℚ :=
  Finset.univ.sup' (Finset.univ_nonempty_iff.mpr ⟨⟨0, h⟩⟩) v

/-- The type of the active strategy's `update(X, Y)` (gpinference, not
under `src/`).  Modelled from the spec: "full recomputation — evaluate
kernel Gram matrix over all observations, add noise variance to diagonal,
factor, solve" (§4.2); for this development only its signature matters:
from the accumulated data it produces a fresh factorization dimension,
projection target and posterior statistics. -/
def StratUpdate (α : Type) : Type :=
  ∀ (m : ℕ), (Fin m → α) → Vec m → (p : ℕ) × ProjTarget α m p × Post p

/-- The type of the strategy's `init()` (gpinference, not under `src/`).
Modelled from the spec: "resets to the empty-data state" (§4.2); it
produces the empty-data statistics, independent of any observations. -/
def StratInit (α : Type) : Type :=
  ∀ (m : ℕ), (p : ℕ) × ProjTarget α m p × Post p

/-- Shallow embedding of `GP._update` (gp.py lines 46–53), phrased on the
accumulated data (both branches discard the previous posterior state):
with no data the strategy is reset via `init()` and `_fmax` is `None`;
otherwise the strategy is recomputed via `update(X, Y)` and `_fmax`
becomes the maximum of the posterior predictive mean at the observed
inputs (`mu, _ = self.predict(self._X); self._fmax = mu.max()`). -/
def GP.update (kf : α → α → ℚ) (mf : α → ℚ) (upd : StratUpdate α)
    (ini : StratInit α) (X : Fin n → α) (Y : Vec n) : GPState α n :=
  if h : n = 0 then
    { X := X, Y := Y, p := (ini n).1, proj := (ini n).2.1,
      post := (ini n).2.2, fmax := none }
  else
    let u := upd n X Y
    let s2 : GPState α n :=
      { X := X, Y := Y, p := u.1, proj := u.2.1, post := u.2.2, fmax := none }
    { s2 with
      fmax := some (Vec.max (GP.postMu kf mf s2 X) (Nat.pos_of_ne_zero h)) }

/-- `Model.add_data` (file `_core.py`, not under `src/`).  Modelled from
the spec: "`add_data(X, Y)`: appends to the observation set, delegates to
the active inference strategy's update" (§4.4) — append the batch, then
run `GP._update` on the accumulated data. -/
def GP.addData (kf : α → α → ℚ) (mf : α → ℚ) (upd : StratUpdate α)
    (ini : StratInit α) (s : GPState α n) (X2 : Fin k → α) (Y2 : Vec k) :
    GPState α (n + k) :=
  GP.update kf mf upd ini (Fin.append s.X X2) (Fin.append s.Y Y2)

/-! ## State-passing forms of the query methods

The Python methods receive `self`; none of the four query methods below
assigns to any attribute of `self`, so their embeddings thread the model
state explicitly and return it alongside the result. -/

/-- `GP.predict` with the model state threaded explicitly. -/
def GP.predictS (st : SolveTri) (kf : α → α → ℚ)
    (kgradx : α → α → Fin dd → ℚ) (mf : α → ℚ) (mgradx : α → Fin dd → ℚ)
    (s : GPState α n) (Xq : Fin q → α) (grad : Bool) :
    Except String (PredictResult q dd) × GPState α n :=
  (GP.predict st kf kgradx mf mgradx s Xq grad, s)

/-- `GP.get_loglike` with the model state threaded explicitly. -/
def GP.getLoglikeS (s : GPState α n) (nhyp : ℕ) (grad : Bool) :
    (ℚ ⊕ ℚ × List ℚ) × GPState α n :=
  ((if grad then .inr (GP.getLoglikeGrad s nhyp) else .inl (GP.getLoglike s)), s)

/-- `GP.sample` with the model state threaded explicitly. -/
def GP.sampleS (st : SolveTri) (chol : CholFn) (kf : α → α → ℚ)
    (mf : α → ℚ) (likeS : ℚ → ℚ) (s : GPState α n) (Xq : Fin q → α)
    (size : Option ℕ) (latent : Bool) (Z : Fin (size.getD 1) → Vec q) :
    Matrix (Fin (size.getD 1)) (Fin q) ℚ × GPState α n :=
  (GP.sample st chol kf mf likeS s Xq size latent Z, s)

/-- `GP.get_improvement` (gp.py lines 140–175, no-gradient path) with the
model state threaded explicitly; errors mirror the `TypeError` Python
raises when `self._fmax` is `None` (the model is unfitted). -/
def GP.getImprovementS (st : SolveTri) (kf : α → α → ℚ) (mf : α → ℚ)
    (sqrtQ pdfQ cdfQ : ℚ → ℚ) (s : GPState α n) (Xq : Fin q → α)
    (xi : ℚ) (pi : Bool) : Except String (Vec q) × GPState α n :=
  (match s.fmax with
   | none => .error "unsupported operand: NoneType"
   | some fm =>
       let mu := GP.postMu kf mf s Xq
       let s2 := GP.s2Marg st kf s Xq
       .ok fun i => GP.improvementQ sqrtQ pdfQ cdfQ fm xi (mu i) (s2 i) pi,
   s)

/-! ## The MCMC ensemble meta-model (`src/reggie/models/meta.py`)

Member models are an abstract type `M`; their methods `predict`,
`add_data` and `sample`, and the external `reggie.learning.sample`
MCMC driver, enter as function parameters. -/

/-- The state of an `MCMC` meta-model (meta.py lines 36–41): the target
ensemble size `n`, the burn-in length, the accumulated data count, and
the current list of member models. -/
structure MCMCState (M : Type) where
  n : ℕ
  burn : ℕ
  ndata : ℕ
  models : List M

/-- `MCMC._sample` (meta.py lines 46–51): when `burn` is set, first run
the chain for `self._burn` steps and keep only the last state, then draw
`self._n` member samples.  `chain m j` is the external
`learning.sample(m, j, False, rng)` — modelled from the spec: it returns
the `j` successive MCMC hyperparameter samples re-conditioned on the
model's data (§4.5); `[-1]` is its last element. -/
def MCMC.sampleModels {M : Type} (chain : M → ℕ → List M)
    (s : MCMCState M) (model : M) (burn : Bool) : List M :=
  let model := if burn then (chain model s.burn).getLastD model else model
  chain model s.n

/-- `MCMC.add_data` (meta.py lines 53–59): pop the last member, add the
batch to it alone (`memberAdd` is that member's `add_data(X, Y)`, `lenX`
the batch size), bump the data count, and regenerate the whole member
list from the popped member — with burn-in exactly when the new count
exceeds twice the previous one. -/
def MCMC.addData {M : Type} (chain : M → ℕ → List M) (memberAdd : M → M)
    (lenX : ℕ) (s : MCMCState M) : MCMCState M :=
  let nprev := s.ndata
  let model := s.models.getLast?
  match model with
  | none => s
  | some m =>
      let m := memberAdd m
      let ndata := s.ndata + lenX
      { s with ndata := ndata,
               models := MCMC.sampleModels chain { s with ndata := ndata } m
                 (decide (2 * nprev < ndata)) }

/-- `MCMC.sample` (meta.py lines 64–67): index one member with the draw
`i = rng.randint(self._n)` of the external rng (uniform on `[0, n)` by
its contract) and delegate to that member's own `sample`; `none` mirrors
the `IndexError` when the draw is out of range. -/
def MCMC.sampleOne {M S : Type} (memberSample : M → S) (s : MCMCState M)
    (i : ℕ) : Option S :=
  (s.models.get? i).map memberSample

/-- `MCMC.predict` (meta.py lines 69–78, no-gradient path): stack the
members' predictive moments, average the means, and average the variances
after adding each member's squared deviation from the ensemble mean. -/
def MCMC.predict {M : Type} (predictFn : M → Vec q × Vec q)
    (models : List M) : Vec q × Vec q :=
  let parts := models.map predictFn
  let muList := parts.map Prod.fst
  let s2List := parts.map Prod.snd
  let N : ℚ := (models.length : ℚ)
  let mu : Vec q := fun j => (muList.map (fun v => v j)).sum / N
  let s2 : Vec q := fun j =>
    ((s2List.zip muList).map (fun vp => vp.1 j + (vp.2 j - mu j) ^ 2)).sum / N
  (mu, s2)

/-! ## Helper lemmas (shared) -/

/-- A mapped list sum written as a `Finset` sum over the index type. -/
theorem list_map_sum_eq {β : Type} (l : List β) (g : β → ℚ) :
    (l.map g).sum = ∑ i : Fin l.length, g (l.get i) := by
  conv_lhs => rw [← List.finRange_map_get l, List.map_map]
  rw [Fin.sum_univ_def]
  rfl

/-! ## Claims about `GP` -/

/-- C2: `GP._predict` fails if and only if it is called with both
`joint=True` and `grad=True`; in every other flag combination it returns
a value, and the public `GP.predict`, which always passes `joint=False`,
returns a value for either gradient flag. -/
theorem predict_valueerror_iff (st : SolveTri) (kf : α → α → ℚ)
    (kgradx : α → α → Fin dd → ℚ) (mf : α → ℚ) (mgradx : α → Fin dd → ℚ)
    (s : GPState α n) (Xq : Fin q → α) :
    (∀ joint grad : Bool,
      (∃ e, GP.predictInner st kf kgradx mf mgradx s Xq joint grad = .error e)
        ↔ (joint = true ∧ grad = true)) ∧
    (∀ grad : Bool,
      ∃ r, GP.predict st kf kgradx mf mgradx s Xq grad = .ok r) := by
  constructor
  · intro joint grad
    cases joint <;> cases grad <;>
      simp [GP.predictInner]
  · intro grad
    cases grad <;>
      simp [GP.predict, GP.predictInner]

/-- C9: with zero observations, `GP._predict` returns exactly the prior:
the mean function's values, and the prior kernel variance — the diagonal
`get_dkernel` in marginal mode, the full `get_kernel` matrix in joint
mode; with `grad=True` the gradients are the prior mean gradient and the
zero variance gradient. -/
theorem predict_prior_of_no_data (st : SolveTri) (kf : ℚ → ℚ → ℚ)
    (kgradx : ℚ → ℚ → Fin dd → ℚ) (mf : ℚ → ℚ) (mgradx : ℚ → Fin dd → ℚ)
    (s : GPState ℚ 0) (Xq : Fin q → ℚ) :
    GP.predictInner st kf kgradx mf mgradx s Xq false false
      = .ok (.marginal (fun j => mf (Xq j)) (fun j => kf (Xq j) (Xq j))) ∧
    GP.predictInner st kf kgradx mf mgradx s Xq true false
      = .ok (.joint (fun j => mf (Xq j)) (fun i j => kf (Xq i) (Xq j))) ∧
    GP.predictInner st kf kgradx mf mgradx s Xq false true
      = .ok (.marginalGrad (fun j => mf (Xq j)) (fun j => kf (Xq j) (Xq j))
          (fun i c => mgradx (Xq i) c) 0) := by
  refine ⟨?_, ?_, ?_⟩ <;>
    simp [GP.predictInner, GP.postMu, GP.s2Marg, GP.s2Joint, GP.dMu, GP.dS2]

/-- C4: `get_loglike` returns exactly `0` with zero observations, and its
gradient form returns `(0, zero vector of length = hyperparameter
count)`; with at least one observation both return the strategy's cached
`lZ` (and `dlZ`). -/
theorem get_loglike_cases (s : GPState α n) (nhyp : ℕ) :
    (n = 0 →
      GP.getLoglike s = 0 ∧
      GP.getLoglikeGrad s nhyp = (0, List.replicate nhyp 0) ∧
      (GP.getLoglikeGrad s nhyp).2.length = nhyp) ∧
    (0 < n →
      GP.getLoglike s = s.post.lZ ∧
      GP.getLoglikeGrad s nhyp = (s.post.lZ, s.post.dlZ)) := by
  constructor
  · intro h
    simp [GP.getLoglike, GP.getLoglikeGrad, h]
  · intro h
    simp [GP.getLoglike, GP.getLoglikeGrad, Nat.pos_iff_ne_zero.mp h]

/-- C10: the query methods `predict`, `get_loglike`, `sample` and
`get_improvement` leave the model state — observations, posterior
statistics and incumbent — unchanged. -/
theorem query_methods_preserve_state (st : SolveTri) (chol : CholFn)
    (kf : α → α → ℚ) (kgradx : α → α → Fin dd → ℚ) (mf : α → ℚ)
    (mgradx : α → Fin dd → ℚ) (likeS : ℚ → ℚ) (sqrtQ pdfQ cdfQ : ℚ → ℚ)
    (s : GPState α n) (Xq : Fin q → α) (grad : Bool) (nhyp : ℕ)
    (size : Option ℕ) (latent : Bool) (Z : Fin (size.getD 1) → Vec q)
    (xi : ℚ) (pi : Bool) :
    (GP.predictS st kf kgradx mf mgradx s Xq grad).2 = s ∧
    (GP.getLoglikeS s nhyp grad).2 = s ∧
    (GP.sampleS st chol kf mf likeS s Xq size latent Z).2 = s ∧
    (GP.getImprovementS st kf mf sqrtQ pdfQ cdfQ s Xq xi pi).2 = s :=
  ⟨rfl, rfl, rfl, rfl⟩

/-- C1: with at least one observation and a correction factor `C`
present, the predictive variance of `GP._predict` is the prior variance,
minus the low-rank projection `Vᵀ·V` (`V = solve_triangular(L, w*K)`),
plus the correction `VCᵀ·VC` (`VC = solve_triangular(C, K)`) — the full
matrices in joint mode and their diagonals (column sums of squares) in
marginal mode, the same formula on both paths. -/
theorem predict_correction_formula (st : SolveTri) (kf : α → α → ℚ)
    (kgradx : α → α → Fin dd → ℚ) (mf : α → ℚ) (mgradx : α → Fin dd → ℚ)
    (s : GPState α n) (Xq : Fin q → α) (Cm : Mat s.p s.p)
    (hn : 0 < n) (hC : s.post.C = some Cm) :
    GP.predictInner st kf kgradx mf mgradx s Xq true false
      = .ok (.joint (GP.postMu kf mf s Xq)
          (fun i j => (kf (Xq i) (Xq j)
              - ∑ l, GP.Vmat st kf s Xq l i * GP.Vmat st kf s Xq l j)
            + ∑ l, st s.p q Cm (GP.Kmat kf s Xq) l i
                * st s.p q Cm (GP.Kmat kf s Xq) l j)) ∧
    GP.predictInner st kf kgradx mf mgradx s Xq false false
      = .ok (.marginal (GP.postMu kf mf s Xq)
          (fun j => (kf (Xq j) (Xq j) - ∑ l, GP.Vmat st kf s Xq l j ^ 2)
            + ∑ l, st s.p q Cm (GP.Kmat kf s Xq) l j ^ 2)) := by
  constructor <;>
    simp [GP.predictInner, GP.s2Joint, GP.s2Marg, hn, hC]

/-- C8: after `add_data` with at least one accumulated observation, the
incumbent `_fmax` is the maximum of the posterior predictive mean over
the accumulated inputs; after `add_data` leaving zero observations the
incumbent is `None` and the strategy is reset via `init()`. -/
theorem add_data_incumbent (kf : α → α → ℚ) (mf : α → ℚ)
    (upd : StratUpdate α) (ini : StratInit α) (s : GPState α n)
    (X2 : Fin k → α) (Y2 : Vec k) :
    (∀ h : 0 < n + k,
      (GP.addData kf mf upd ini s X2 Y2).fmax
        = some (Vec.max
            (GP.postMu kf mf (GP.addData kf mf upd ini s X2 Y2)
              (GP.addData kf mf upd ini s X2 Y2).X) h)) ∧
    (n + k = 0 →
      GP.addData kf mf upd ini s X2 Y2
        = { X := Fin.append s.X X2, Y := Fin.append s.Y Y2,
            p := (ini (n + k)).1, proj := (ini (n + k)).2.1,
            post := (ini (n + k)).2.2, fmax := none }) := by
  constructor
  · intro h
    have h0 : ¬(n + k = 0) := Nat.pos_iff_ne_zero.mp h
    simp only [GP.addData, GP.update, dif_neg h0]
    rfl
  · intro h
    simp only [GP.addData, GP.update, dif_pos h]

/-! ## Claims about `MCMC` -/

/-- C3: `MCMC.predict` returns the arithmetic average of the members'
means, and the average over members of each member's variance plus its
squared deviation from the ensemble mean. -/
theorem mcmc_predict_moment_match {M : Type} (predictFn : M → Vec q × Vec q)
    (models : List M) (h : 0 < models.length) (j : Fin q) :
    (MCMC.predict predictFn models).1 j
      = (∑ i : Fin models.length, (predictFn (models.get i)).1 j)
          / models.length ∧
    (MCMC.predict predictFn models).2 j
      = (∑ i : Fin models.length,
          ((predictFn (models.get i)).2 j
            + ((predictFn (models.get i)).1 j
                - (MCMC.predict predictFn models).1 j) ^ 2))
          / models.length := by
  constructor
  · simp only [MCMC.predict, List.map_map]
    rw [list_map_sum_eq]
    rfl
  · simp only [MCMC.predict, List.map_map, List.zip_map', List.map_map]
    rw [list_map_sum_eq]
    rfl

/-- C5: `MCMC.add_data` adds the batch to the last member alone (removed
from the list), regenerates the full member list of `n` samples from it,
and burns in exactly when the accumulated count after the call exceeds
twice the count before it. -/
theorem mcmc_add_data_resample {M : Type} (chain : M → ℕ → List M)
    (memberAdd : M → M) (lenX : ℕ) (s : MCMCState M) (m : M)
    (hm : s.models.getLast? = some m)
    (hlen : ∀ (mo : M) (j : ℕ), (chain mo j).length = j) :
    MCMC.addData chain memberAdd lenX s
      = { s with
          ndata := s.ndata + lenX,
          models :=
            MCMC.sampleModels chain { s with ndata := s.ndata + lenX }
              (memberAdd m) (decide (2 * s.ndata < s.ndata + lenX)) } ∧
    (MCMC.addData chain memberAdd lenX s).models.length = s.n ∧
    ((2 * s.ndata < s.ndata + lenX) ↔ s.ndata < lenX) := by
  refine ⟨?_, ?_, by omega⟩
  · simp only [MCMC.addData, hm]
  · simp only [MCMC.addData, hm, MCMC.sampleModels, hlen]

/-- C7: `MCMC.sample` delegates to the single member indexed by the rng
draw: whenever the drawn index is in range it returns exactly that
member's own sample. -/
theorem mcmc_sample_delegates {M S : Type} (memberSample : M → S)
    (s : MCMCState M) (i : ℕ) (h : i < s.models.length) :
    MCMC.sampleOne memberSample s i
      = some (memberSample (s.models.get ⟨i, h⟩)) := by
  simp only [MCMC.sampleOne, List.get?_eq_get h, Option.map_some']

/-! ## Concrete instances for the witnesses -/

/-- A concrete `solve_triangular` stand-in for witnesses. -/
def exSolve : SolveTri := fun _ _ _ B => B

/-- A concrete 1×1 correction factor. -/
def exC1 : Mat 1 1 := fun _ _ => (1 : ℚ)

/-- Concrete posterior statistics over one observation. -/
def exPost1 : Post 1 :=
  { w := fun _ => 1, L := fun _ _ => 1, a := fun _ => 1,
    C := some exC1, lZ := 5, dlZ := [1, 2] }

/-- A concrete fitted one-observation model state. -/
def exState1 : GPState ℚ 1 :=
  { X := fun _ => 0, Y := fun _ => 1, p := 1, proj := .data rfl,
    post := exPost1, fmax := some 3 }

/-- A concrete kernel function. -/
def exKf : ℚ → ℚ → ℚ := fun x y => 1 + x * y

/-- A concrete mean function. -/
def exMf : ℚ → ℚ := fun x => x

/-- A concrete kernel input-gradient. -/
def exKgx : ℚ → ℚ → Fin 1 → ℚ := fun _ y _ => y

/-- A concrete mean input-gradient. -/
def exMgx : ℚ → Fin 1 → ℚ := fun _ _ => 1

/-- A concrete one-point query batch. -/
def exXq : Fin 1 → ℚ := fun _ => 2

/-- Witness for C1 at the concrete one-observation corrected state. -/
theorem predict_correction_formula_witness :
    0 < 1 ∧ exState1.post.C = some exC1 ∧
    (GP.predictInner exSolve exKf exKgx exMf exMgx exState1 exXq true false
      = .ok (.joint (GP.postMu exKf exMf exState1 exXq)
          (fun i j => (exKf (exXq i) (exXq j)
              - ∑ l, GP.Vmat exSolve exKf exState1 exXq l i
                  * GP.Vmat exSolve exKf exState1 exXq l j)
            + ∑ l, exSolve exState1.p 1 exC1 (GP.Kmat exKf exState1 exXq) l i
                * exSolve exState1.p 1 exC1 (GP.Kmat exKf exState1 exXq) l j)) ∧
     GP.predictInner exSolve exKf exKgx exMf exMgx exState1 exXq false false
      = .ok (.marginal (GP.postMu exKf exMf exState1 exXq)
          (fun j => (exKf (exXq j) (exXq j)
              - ∑ l, GP.Vmat exSolve exKf exState1 exXq l j ^ 2)
            + ∑ l, exSolve exState1.p 1 exC1
                (GP.Kmat exKf exState1 exXq) l j ^ 2))) :=
  ⟨Nat.one_pos, rfl,
    predict_correction_formula exSolve exKf exKgx exMf exMgx exState1 exXq exC1
      Nat.one_pos rfl⟩

/-- A concrete two-member ensemble, each member already carrying its
predictive moments at a one-point batch. -/
def exMembers : List (Vec 1 × Vec 1) :=
  [(fun _ => 1, fun _ => 2), (fun _ => 3, fun _ => 4)]

/-- Witness for C3 at the concrete two-member ensemble. -/
theorem mcmc_predict_moment_match_witness :
    0 < exMembers.length ∧
    ((MCMC.predict id exMembers).1 0
      = (∑ i : Fin exMembers.length, (id (exMembers.get i)).1 0)
          / exMembers.length ∧
     (MCMC.predict id exMembers).2 0
      = (∑ i : Fin exMembers.length,
          ((id (exMembers.get i)).2 0
            + ((id (exMembers.get i)).1 0
                - (MCMC.predict id exMembers).1 0) ^ 2))
          / exMembers.length) :=
  ⟨by decide, mcmc_predict_moment_match id exMembers (by decide) 0⟩

/-- A concrete MCMC chain driver for witnesses: `j` copies of the model. -/
def exChain : ℕ → ℕ → List ℕ := fun m j => List.replicate j m

/-- A concrete one-member MCMC state with one accumulated datum. -/
def exMCMC : MCMCState ℕ := ⟨2, 3, 1, [5]⟩

/-- Witness for C5 at the concrete ensemble state, with a batch of 4. -/
theorem mcmc_add_data_resample_witness :
    exMCMC.models.getLast? = some 5 ∧
    (∀ (mo j : ℕ), (exChain mo j).length = j) ∧
    (MCMC.addData exChain Nat.succ 4 exMCMC
      = { exMCMC with
          ndata := exMCMC.ndata + 4,
          models :=
            MCMC.sampleModels exChain { exMCMC with ndata := exMCMC.ndata + 4 }
              (Nat.succ 5) (decide (2 * exMCMC.ndata < exMCMC.ndata + 4)) } ∧
     (MCMC.addData exChain Nat.succ 4 exMCMC).models.length = exMCMC.n ∧
     ((2 * exMCMC.ndata < exMCMC.ndata + 4) ↔ exMCMC.ndata < 4)) :=
  ⟨rfl, fun mo j => by simp [exChain],
    mcmc_add_data_resample exChain Nat.succ 4 exMCMC 5 rfl
      (fun mo j => by simp [exChain])⟩

/-- A concrete one-member MCMC state for the sampling witness. -/
def exMCMC1 : MCMCState ℕ := ⟨1, 0, 0, [7]⟩

/-- Witness for C7: the draw `i = 0` is in range and sampling delegates
to the single member. -/
theorem mcmc_sample_delegates_witness :
    0 < exMCMC1.models.length ∧
    MCMC.sampleOne Nat.succ exMCMC1 0
      = some (Nat.succ (exMCMC1.models.get ⟨0, by decide⟩)) :=
  ⟨by decide, mcmc_sample_delegates Nat.succ exMCMC1 0 (by decide)⟩

/-! ## The acquisition functions over `ℝ` (gp.py lines 140–175)

`GP.get_improvement` consumes the predictive moments `(mu, s2)` returned
by `predict` and applies a per-point scalar formula built from `np.sqrt`
and the standard-normal pdf/cdf of `scipy.stats.norm`; these external
routines are the real functions they compute. -/

open Real MeasureTheory Filter Topology

/-- The standard normal density, `scipy.stats.norm.pdf`. -/
noncomputable def phi (t : ℝ) : ℝ :=
  (Real.sqrt (2 * Real.pi))⁻¹ * Real.exp (-t ^ 2 / 2)

/-- The standard normal distribution function, `scipy.stats.norm.cdf`. -/
noncomputable def Phi (z : ℝ) : ℝ :=
  ∫ t in Set.Iic z, phi t

/-- The per-point value of `GP.get_improvement` (gp.py lines 153–165):
`z = (mu - (fmax + xi)) / sqrt s2`; the probability of improvement is
`Φ(z)`, the expected improvement `a·Φ(z) + s·φ(z)`. -/
noncomputable def GP.improvement (fmax xi mu s2 : ℝ) (pi : Bool) : ℝ :=
  let a := mu - (fmax + xi)
  let s := Real.sqrt s2
  let z := a / s
  if pi then Phi z else a * Phi z + s * phi z

/-- `GP.get_improvement` on a query batch: the scalar formula applied to
each point's predictive moments. -/
noncomputable def GP.getImprovement (fmax xi : ℝ) (mu s2 : Fin q → ℝ)
    (pi : Bool) : Fin q → ℝ :=
  fun i => GP.improvement fmax xi (mu i) (s2 i) pi

/-- The normal density is strictly positive. -/
theorem phi_pos (t : ℝ) : 0 < phi t := by
  have h2 : (0 : ℝ) < Real.sqrt (2 * Real.pi) :=
    Real.sqrt_pos.mpr (by positivity)
  exact mul_pos (inv_pos.mpr h2) (Real.exp_pos _)

/-- The normal density is maximal at the origin. -/
theorem phi_le_phi_zero (t : ℝ) : phi t ≤ phi 0 := by
  have h2 : (0 : ℝ) < Real.sqrt (2 * Real.pi) :=
    Real.sqrt_pos.mpr (by positivity)
  have : Real.exp (-t ^ 2 / 2) ≤ Real.exp (-(0 : ℝ) ^ 2 / 2) := by
    apply Real.exp_le_exp.mpr
    nlinarith [sq_nonneg t]
  exact mul_le_mul_of_nonneg_left this (inv_pos.mpr h2).le

/-- The normal density as a scaled `exp (-b·x²)`. -/
theorem phi_eq_scaled (t : ℝ) :
    phi t = (Real.sqrt (2 * Real.pi))⁻¹ * Real.exp (-(1 / 2) * t ^ 2) := by
  rw [phi, show (-t ^ 2 / 2 : ℝ) = -(1 / 2) * t ^ 2 by ring]

/-- The normal density is integrable. -/
theorem integrable_phi : Integrable phi := by
  have h := (integrable_exp_neg_mul_sq (by norm_num : (0 : ℝ) < 1 / 2)).const_mul
    (Real.sqrt (2 * Real.pi))⁻¹
  exact h.congr (Eventually.of_forall fun t => (phi_eq_scaled t).symm)

/-- `t · φ(t)` is integrable. -/
theorem integrable_mul_phi : Integrable (fun t => t * phi t) := by
  have h := (integrable_mul_exp_neg_mul_sq (by norm_num : (0 : ℝ) < 1 / 2)).const_mul
    (Real.sqrt (2 * Real.pi))⁻¹
  refine h.congr (Eventually.of_forall fun t => ?_)
  show (Real.sqrt (2 * Real.pi))⁻¹ * (t * Real.exp (-(1 / 2) * t ^ 2)) = t * phi t
  rw [phi_eq_scaled]
  ring

/-- The normal density integrates to one. -/
theorem integral_phi_eq_one : ∫ t, phi t = 1 := by
  have h0 : (0 : ℝ) < 2 * Real.pi := by positivity
  have h : ∫ t : ℝ, Real.exp (-(1 / 2) * t ^ 2) = Real.sqrt (2 * Real.pi) := by
    rw [integral_gaussian,
      show (Real.pi / (1 / 2) : ℝ) = 2 * Real.pi by ring]
  calc ∫ t, phi t
      = ∫ t : ℝ, (Real.sqrt (2 * Real.pi))⁻¹ * Real.exp (-(1 / 2) * t ^ 2) := by
        congr 1; funext t; rw [phi_eq_scaled]
    _ = (Real.sqrt (2 * Real.pi))⁻¹ * ∫ t : ℝ, Real.exp (-(1 / 2) * t ^ 2) :=
        integral_mul_left _ _
    _ = 1 := by
        rw [h]
        exact inv_mul_cancel₀ (ne_of_gt (Real.sqrt_pos.mpr h0))

/-- `Φ` is nonnegative. -/
theorem Phi_nonneg (z : ℝ) : 0 ≤ Phi z :=
  setIntegral_nonneg measurableSet_Iic fun t _ => (phi_pos t).le

/-- `Φ` is at most one. -/
theorem Phi_le_one (z : ℝ) : Phi z ≤ 1 := by
  calc Phi z ≤ ∫ t, phi t :=
        setIntegral_le_integral integrable_phi
          (Eventually.of_forall fun t => (phi_pos t).le)
    _ = 1 := integral_phi_eq_one

/-- `-φ` is an antiderivative of `t·φ(t)`. -/
theorem hasDerivAt_neg_phi (t : ℝ) :
    HasDerivAt (fun u => -phi u) (t * phi t) t := by
  have h1 : HasDerivAt (fun u : ℝ => -u ^ 2 / 2) (-t) t := by
    have h := ((hasDerivAt_pow 2 t).neg).div_const 2
    convert h using 1
    push_cast
    ring
  have h3 : HasDerivAt
      (fun u : ℝ => -((Real.sqrt (2 * Real.pi))⁻¹ * Real.exp (-u ^ 2 / 2)))
      (-((Real.sqrt (2 * Real.pi))⁻¹ * (Real.exp (-t ^ 2 / 2) * -t))) t :=
    ((h1.exp).const_mul (Real.sqrt (2 * Real.pi))⁻¹).neg
  have hf : (fun u : ℝ => -((Real.sqrt (2 * Real.pi))⁻¹ * Real.exp (-u ^ 2 / 2)))
      = fun u => -phi u := by
    funext u
    rw [phi]
  have he : (-((Real.sqrt (2 * Real.pi))⁻¹ * (Real.exp (-t ^ 2 / 2) * -t)) : ℝ)
      = t * phi t := by
    rw [phi]
    ring
  rw [hf, he] at h3
  exact h3

/-- `φ` vanishes at `-∞`. -/
theorem tendsto_phi_atBot : Tendsto phi atBot (𝓝 0) := by
  have hneg : Tendsto (fun t : ℝ => -t) atBot atTop := tendsto_neg_atBot_atTop
  have hpow : Tendsto (fun x : ℝ => x ^ 2) atTop atTop :=
    tendsto_pow_atTop (by norm_num)
  have hsq : Tendsto (fun t : ℝ => t ^ 2) atBot atTop := by
    have h := hpow.comp hneg
    exact h.congr fun t => by simp [neg_pow]
  have harg : Tendsto (fun t : ℝ => -t ^ 2 / 2) atBot atBot := by
    have h : Tendsto (fun t : ℝ => -(1 / 2) * t ^ 2) atBot atBot :=
      (tendsto_const_mul_atBot_of_neg (by norm_num)).mpr hsq
    exact h.congr fun t => by ring
  have hexp : Tendsto (fun t : ℝ => Real.exp (-t ^ 2 / 2)) atBot (𝓝 0) :=
    Real.tendsto_exp_atBot.comp harg
  have h5 := hexp.const_mul (Real.sqrt (2 * Real.pi))⁻¹
  rw [mul_zero] at h5
  exact h5

/-- The first-moment integral over a left tail: `∫_{-∞}^z t·φ(t) = -φ(z)`. -/
theorem integral_Iic_mul_phi (z : ℝ) :
    ∫ t in Set.Iic z, t * phi t = -phi z := by
  have hlim : Tendsto (fun u => -phi u) atBot (𝓝 (0 : ℝ)) := by
    have h := tendsto_phi_atBot.neg
    simpa using h
  have h : ∫ t in Set.Iic z, t * phi t = (fun u => -phi u) z - 0 :=
    integral_Iic_of_hasDerivAt_of_tendsto'
      (fun t _ => hasDerivAt_neg_phi t) integrable_mul_phi.integrableOn hlim
  simpa using h

/-- The Mills-ratio bound: for `z < 0`, `Φ(z) ≤ φ(z)/(-z)`. -/
theorem Phi_le_mills {z : ℝ} (hz : z < 0) : Phi z ≤ phi z / (-z) := by
  have hzne : z ≠ 0 := ne_of_lt hz
  have hint2 : Integrable (fun t => (t / z) * phi t) := by
    refine (integrable_mul_phi.const_mul (1 / z)).congr
      (Eventually.of_forall fun t => ?_)
    show 1 / z * (t * phi t) = (t / z) * phi t
    ring
  have hmono : Phi z ≤ ∫ t in Set.Iic z, (t / z) * phi t := by
    refine setIntegral_mono_on integrable_phi.integrableOn hint2.integrableOn
      measurableSet_Iic fun t ht => ?_
    have h1 : 1 ≤ t / z := by
      rw [le_div_iff_of_neg hz]
      simpa using ht
    nlinarith [phi_pos t]
  have hval : ∫ t in Set.Iic z, (t / z) * phi t = phi z / (-z) := by
    have hpull : ∫ t in Set.Iic z, (t / z) * phi t
        = (1 / z) * ∫ t in Set.Iic z, t * phi t := by
      rw [← integral_mul_left]
      congr 1
      funext t
      ring
    rw [hpull, integral_Iic_mul_phi, div_neg]
    ring
  exact hval ▸ hmono

/-- `Φ` vanishes at `-∞`. -/
theorem tendsto_Phi_atBot : Tendsto Phi atBot (𝓝 0) := by
  have hupper : ∀ᶠ z in atBot, Phi z ≤ phi 0 / (-z) := by
    filter_upwards [eventually_lt_atBot (0 : ℝ)] with z hz
    refine (Phi_le_mills hz).trans ?_
    exact div_le_div_of_nonneg_right (phi_le_phi_zero z) (by linarith)
  have hlower : ∀ᶠ z in atBot, (0 : ℝ) ≤ Phi z :=
    Eventually.of_forall Phi_nonneg
  have hbound : Tendsto (fun z : ℝ => phi 0 / (-z)) atBot (𝓝 0) := by
    have h := tendsto_inv_atTop_zero.comp
      (tendsto_neg_atBot_atTop : Tendsto (Neg.neg : ℝ → ℝ) atBot atTop)
    have h2 := h.const_mul (phi 0)
    simp only [mul_zero] at h2
    refine h2.congr fun z => ?_
    show phi 0 * (-z)⁻¹ = phi 0 / (-z)
    rw [div_eq_mul_inv]
  exact tendsto_of_tendsto_of_tendsto_of_le_of_le' tendsto_const_nhds hbound
    hlower hupper

/-- `Φ(0) = 1/2`, by symmetry of the density. -/
theorem Phi_zero_eq_half : Phi 0 = 1 / 2 := by
  have heven : ∀ t : ℝ, phi (-t) = phi t := by
    intro t
    simp [phi, neg_pow]
  have hsym : Phi 0 = ∫ t in Set.Ioi (0 : ℝ), phi t := by
    have h := integral_comp_neg_Iic (0 : ℝ) phi
    rw [neg_zero] at h
    calc Phi 0 = ∫ t in Set.Iic (0 : ℝ), phi (-t) := by
          rw [Phi]
          congr 1
          funext t
          rw [heven]
      _ = ∫ t in Set.Ioi (0 : ℝ), phi t := h
  have hsplit : Phi 0 + ∫ t in Set.Ioi (0 : ℝ), phi t = 1 := by
    rw [Phi, intervalIntegral.integral_Iic_add_Ioi integrable_phi.integrableOn
      integrable_phi.integrableOn, integral_phi_eq_one]
  rw [hsym] at hsplit ⊢
  linarith

/-- The unit-scale expected improvement `z·Φ(z) + φ(z)` is nonnegative. -/
theorem ei_term_nonneg (z : ℝ) : 0 ≤ z * Phi z + phi z := by
  rcases le_or_lt 0 z with hz | hz
  · exact add_nonneg (mul_nonneg hz (Phi_nonneg z)) (phi_pos z).le
  · have hzne : z ≠ 0 := ne_of_lt hz
    have hm := Phi_le_mills hz
    have h1 : z * (phi z / (-z)) ≤ z * Phi z :=
      mul_le_mul_of_nonpos_left hm hz.le
    have h2 : z * (phi z / (-z)) = -phi z := by
      rw [div_neg, mul_neg, neg_inj, mul_comm]
      exact div_mul_cancel₀ _ hzne
    linarith

/-- As the variance tends to `0⁺`, its square root tends to `0` inside
the positive reals. -/
theorem tendsto_sqrt_within :
    Tendsto Real.sqrt (𝓝[>] (0 : ℝ)) (𝓝[>] (0 : ℝ)) := by
  apply tendsto_nhdsWithin_of_tendsto_nhds_of_eventually_within
  · have h := Real.continuous_sqrt.tendsto 0
    rw [Real.sqrt_zero] at h
    exact h.mono_left nhdsWithin_le_nhds
  · filter_upwards [self_mem_nhdsWithin] with x hx
    exact Set.mem_Ioi.mpr (Real.sqrt_pos.mpr hx)

/-- For `a < 0`, the standardised value `a/√s2` tends to `-∞` as the
variance tends to `0⁺`. -/
theorem tendsto_std_atBot {a : ℝ} (ha : a < 0) :
    Tendsto (fun s2 => a / Real.sqrt s2) (𝓝[>] (0 : ℝ)) atBot := by
  have hinv : Tendsto (fun s2 => (Real.sqrt s2)⁻¹) (𝓝[>] (0 : ℝ)) atTop :=
    tendsto_inv_zero_atTop.comp tendsto_sqrt_within
  have h : Tendsto (fun s2 => a * (Real.sqrt s2)⁻¹) (𝓝[>] (0 : ℝ)) atBot :=
    (tendsto_const_mul_atBot_of_neg ha).mpr hinv
  exact h.congr fun s2 => (div_eq_mul_inv a _).symm

/-- The square root of the variance tends to `0` (plain limit). -/
theorem tendsto_sqrt_zero :
    Tendsto (fun s2 => Real.sqrt s2) (𝓝[>] (0 : ℝ)) (𝓝 0) := by
  have h := Real.continuous_sqrt.tendsto 0
  rw [Real.sqrt_zero] at h
  exact h.mono_left nhdsWithin_le_nhds

/-- The noise term `√s2 · φ(a/√s2)` vanishes as the variance tends to
`0⁺`, for any `a`. -/
theorem tendsto_noise_zero (a : ℝ) :
    Tendsto (fun s2 => Real.sqrt s2 * phi (a / Real.sqrt s2))
      (𝓝[>] (0 : ℝ)) (𝓝 0) := by
  have hupper : Tendsto (fun s2 => Real.sqrt s2 * phi 0) (𝓝[>] (0 : ℝ)) (𝓝 0) := by
    have h := tendsto_sqrt_zero.mul_const (phi 0)
    rwa [zero_mul] at h
  refine tendsto_of_tendsto_of_tendsto_of_le_of_le' tendsto_const_nhds hupper
    (Eventually.of_forall fun s2 => ?_) (Eventually.of_forall fun s2 => ?_)
  · exact mul_nonneg (Real.sqrt_nonneg _) (phi_pos _).le
  · exact mul_le_mul_of_nonneg_left (phi_le_phi_zero _) (Real.sqrt_nonneg _)

/-- C6 (amended): every probability-of-improvement value lies in `[0,1]`;
every expected-improvement value at positive predictive variance is
nonnegative; as the predictive variance tends to `0⁺` the expected
improvement tends to `0` whenever the mean is at most the incumbent plus
`xi`, and the probability of improvement tends to `0` whenever the mean
is strictly below the incumbent plus `xi`. -/
theorem improvement_bounds_and_limits (fmax xi : ℝ) :
    (∀ (q : ℕ) (mu s2 : Fin q → ℝ) (i : Fin q),
        0 ≤ GP.getImprovement fmax xi mu s2 true i ∧
        GP.getImprovement fmax xi mu s2 true i ≤ 1) ∧
    (∀ (q : ℕ) (mu s2 : Fin q → ℝ) (i : Fin q), 0 < s2 i →
        0 ≤ GP.getImprovement fmax xi mu s2 false i) ∧
    (∀ mu : ℝ, mu ≤ fmax + xi →
        Tendsto (fun s2 => GP.improvement fmax xi mu s2 false)
          (𝓝[>] (0 : ℝ)) (𝓝 0)) ∧
    (∀ mu : ℝ, mu < fmax + xi →
        Tendsto (fun s2 => GP.improvement fmax xi mu s2 true)
          (𝓝[>] (0 : ℝ)) (𝓝 0)) := by
  refine ⟨?_, ?_, ?_, ?_⟩
  · intro q mu s2 i
    simp only [GP.getImprovement, GP.improvement, if_true]
    exact ⟨Phi_nonneg _, Phi_le_one _⟩
  · intro q mu s2 i hs2
    simp only [GP.getImprovement, GP.improvement, if_false]
    set a := mu i - (fmax + xi) with ha
    set s := Real.sqrt (s2 i) with hs
    have hspos : 0 < s := Real.sqrt_pos.mpr hs2
    have hkey : a * Phi (a / s) + s * phi (a / s)
        = s * ((a / s) * Phi (a / s) + phi (a / s)) := by
      field_simp
      ring
    rw [hkey]
    exact mul_nonneg hspos.le (ei_term_nonneg _)
  · intro mu hmu
    have hsum : Tendsto
        (fun s2 => (mu - (fmax + xi)) * Phi ((mu - (fmax + xi)) / Real.sqrt s2)
          + Real.sqrt s2 * phi ((mu - (fmax + xi)) / Real.sqrt s2))
        (𝓝[>] (0 : ℝ)) (𝓝 0) := by
      have h2 := tendsto_noise_zero (mu - (fmax + xi))
      have h1 : Tendsto
          (fun s2 => (mu - (fmax + xi)) * Phi ((mu - (fmax + xi)) / Real.sqrt s2))
          (𝓝[>] (0 : ℝ)) (𝓝 0) := by
        rcases eq_or_lt_of_le (sub_nonpos.mpr hmu) with heq | hlt
        · have hz : (fun s2 : ℝ =>
              (mu - (fmax + xi)) * Phi ((mu - (fmax + xi)) / Real.sqrt s2))
              = fun _ => 0 := by
            funext s2
            rw [heq, zero_mul]
          rw [hz]
          exact tendsto_const_nhds
        · have h := (tendsto_Phi_atBot.comp (tendsto_std_atBot hlt)).const_mul
            (mu - (fmax + xi))
          rwa [mul_zero] at h
      have h := h1.add h2
      rwa [add_zero] at h
    refine hsum.congr fun s2 => ?_
    simp [GP.improvement]
  · intro mu hmu
    have hlt : mu - (fmax + xi) < 0 := sub_neg.mpr hmu
    have h := tendsto_Phi_atBot.comp (tendsto_std_atBot hlt)
    refine h.congr fun s2 => ?_
    simp [GP.improvement, Function.comp]

/-- C6 counterexample: at predictive mean exactly equal to the incumbent
plus margin, the probability of improvement is constantly `Φ(0) = 1/2`,
so it does not tend to `0` as the variance tends to `0⁺`. -/
theorem pi_limit_at_equality_fails :
    ¬ Tendsto (fun s2 => GP.improvement 0 0 0 s2 true)
      (𝓝[>] (0 : ℝ)) (𝓝 0) := by
  intro hT
  have hconst : (fun s2 : ℝ => GP.improvement 0 0 0 s2 true)
      = fun _ => Phi 0 := by
    funext s2
    simp [GP.improvement]
  rw [hconst] at hT
  have h2 : Tendsto (fun _ : ℝ => Phi 0) (𝓝[>] (0 : ℝ)) (𝓝 (Phi 0)) :=
    tendsto_const_nhds
  have h3 : Phi 0 = 0 := tendsto_nhds_unique h2 hT
  rw [Phi_zero_eq_half] at h3
  norm_num at h3

end Reggie
